import Mathlib

/-!
# Verification of the PageRank estimators (`pagerank.py`)

Shallow embedding of the three core functions of the repository:
`transition_model`, `sample_pagerank` and `iterate_pagerank`.

Modelling conventions:
* A Python dict `corpus` (page -> set of linked pages) is modelled by its key
  list `pages : List α` (dict keys, in iteration order; a dict's keys are
  pairwise distinct, which theorems assume as `pages.Nodup` where needed)
  together with the lookup `links : α → Finset α` (Python's set values;
  only its values on members of `pages` are ever consulted).
* Python floats are modelled by exact rationals `ℚ`; the numerical claims of
  the specification are about the algebraic formulas of the code, and every
  arithmetic operation performed by the code (`+`, `*`, `/`, `abs`, `<`)
  is translated operation for operation.
* Loops over dict keys (`for web in corpus`) are translated as `List.foldl`
  over `pages`.
* The random source (`random.choice`, `random.choices`) is modelled by an
  oracle `stream : ℕ → ℕ` of indices into the current options list; the
  weights passed to `random.choices` do not influence which results are
  *possible* for the claims below, only their probabilities, which none of
  the verified claims quantify.
* Python exceptions are modelled by `Except PyError`.  The unbounded
  `while True` loop of `iterate_pagerank` is modelled with an explicit fuel
  parameter; `PyError.fuelExhausted` is a modelling artefact marking fuel
  runout (the Python loop would simply continue; the termination theorem
  shows sufficient fuel always exists for `damping < 1`).
-/

namespace PageRank

/-- Errors a call can surface.  `indexError` models Python's `IndexError`
(e.g. `random.choice` on an empty sequence), `zeroDivisionError` models
`ZeroDivisionError` (division by `len(corpus)` for an empty corpus),
`invalidArgument` is the error class named by the specification (never
raised by the code), and `fuelExhausted` is the fuel-model artefact. -/
inductive PyError where
  | indexError
  | zeroDivisionError
  | invalidArgument
  | fuelExhausted
deriving DecidableEq

variable {α : Type} [DecidableEq α]

/-- Model of `transition_model(corpus, page, damping_factor)` from `src/pagerank.py`:
every key starts at `random_factor = (1 - damping_factor) / len(corpus)`, and
each key `web` with `web in corpus[page]` additionally receives
`damping_factor / len(corpus[page])`.  The returned dict has the corpus keys;
it is modelled as a total function whose meaningful domain is `pages`. -/
def transition_model (pages : List α) (links : α → Finset α) (page : α)
    (damping_factor : ℚ) : α → ℚ :=
  let random_factor := (1 - damping_factor) / (pages.length : ℚ)
  fun web =>
    if web ∈ links page then
      random_factor + damping_factor / ((links page).card : ℚ)
    else random_factor

/-- The inner loop of `iterate_pagerank` computing `addition` for one `page`:
`for web in corpus:` add `old_pagerank[web] / len(corpus[web])` when
`page in corpus[web]`, and add `old_pagerank[web] / len(corpus)` when
`corpus[web]` is empty. -/
def addition_loop (pages : List α) (links : α → Finset α) (old_pagerank : α → ℚ)
    (page : α) : ℚ :=
  pages.foldl
    (fun addition web =>
      let addition :=
        if page ∈ links web then
          addition + old_pagerank web / ((links web).card : ℚ)
        else addition
      if links web = ∅ then
        addition + old_pagerank web / (pages.length : ℚ)
      else addition)
    0

/-- One synchronous update round of `iterate_pagerank`: for each `page`,
compute `addition` from `old_pagerank` only, substitute `1 / len(corpus)`
when it is zero, and set
`new_pagerank[page] = random_factor + damping_factor * addition`. -/
def new_rank_step (pages : List α) (links : α → Finset α) (damping_factor : ℚ)
    (old_pagerank : α → ℚ) : α → ℚ :=
  let random_factor := (1 - damping_factor) / (pages.length : ℚ)
  fun page =>
    let addition := addition_loop pages links old_pagerank page
    let addition := if addition = 0 then 1 / (pages.length : ℚ) else addition
    random_factor + damping_factor * addition

/-- The `while True` loop of `iterate_pagerank`, with explicit fuel: compute
`new_pagerank` from `old_pagerank`, stop when no value changed by `0.001` or
more, else continue from `new_pagerank`. -/
def iterate_loop (pages : List α) (links : α → Finset α) (damping_factor : ℚ) :
    ℕ → (α → ℚ) → Option (α → ℚ)
  | 0, _ => none
  | fuel + 1, old_pagerank =>
    let new_pagerank := new_rank_step pages links damping_factor old_pagerank
    if ∀ page ∈ pages, |new_pagerank page - old_pagerank page| < 1 / 1000 then
      some new_pagerank
    else iterate_loop pages links damping_factor fuel new_pagerank

/-- Model of `iterate_pagerank(corpus, damping_factor)` from `src/pagerank.py`.
On an empty corpus the line `random_factor = (1 - damping_factor) / len(corpus)`
raises `ZeroDivisionError`; otherwise every page starts at `1 / len(corpus)`
and the loop runs until convergence (fuel models the unbounded loop). -/
def iterate_pagerank (pages : List α) (links : α → Finset α)
    (damping_factor : ℚ) (fuel : ℕ) : Except PyError (α → ℚ) :=
  if pages.length = 0 then Except.error PyError.zeroDivisionError
  else
    match iterate_loop pages links damping_factor fuel
        (fun _ => 1 / (pages.length : ℚ)) with
    | some new_pagerank => Except.ok new_pagerank
    | none => Except.error PyError.fuelExhausted

/-- The `if n > 1: for _ in range(n-1):` loop of `sample_pagerank`: at each
step compute the transition model for the previous `choice`, unpack the
options and their weights, draw the next choice (oracle-indexed member of the
options list) and append it to the sample.  The second component counts how
many times `transition_model` was evaluated. -/
def sample_loop (pages : List α) (links : α → Finset α) (damping_factor : ℚ)
    (stream : ℕ → ℕ) : ℕ → ℕ → α → Except PyError (List α × ℕ)
  | 0, _, _ => Except.ok ([], 0)
  | steps + 1, t, choice =>
    let model := transition_model pages links choice damping_factor
    match pages with
    | [] => Except.error PyError.indexError
    | o :: os =>
      let _ponderation := (o :: os).map model
      let next := (o :: os).get ⟨stream t % (o :: os).length, Nat.mod_lt _ (Nat.succ_pos _)⟩
      match sample_loop pages links damping_factor stream steps (t + 1) next with
      | Except.ok (rest, calls) => Except.ok (next :: rest, calls + 1)
      | Except.error e => Except.error e

/-- Model of `sample_pagerank(corpus, damping_factor, n)` from `src/pagerank.py`:
`options = list(corpus.keys())` is the key list; the first sample is
`random.choice(options)` (an `IndexError` when the corpus is empty), then
`n - 1` further samples are drawn from the transition model (`range(n-1)` is
empty for `n ≤ 1`, hence `(n-1).toNat` steps), and the dict
`{key: 0 for key in options}` incremented per sampled item and divided by
`len(sample)` is the returned dict — its value at `key` equals
`sample.count(key) / len(sample)`.  The second component of a successful
result counts the `transition_model` evaluations performed. -/
def sample_pagerank (pages : List α) (links : α → Finset α)
    (damping_factor : ℚ) (n : ℤ) (stream : ℕ → ℕ) :
    Except PyError ((α → ℚ) × ℕ) :=
  match pages with
  | [] => Except.error PyError.indexError
  | o :: os =>
    let choice := (o :: os).get ⟨stream 0 % (o :: os).length, Nat.mod_lt _ (Nat.succ_pos _)⟩
    match sample_loop (o :: os) links damping_factor stream (n - 1).toNat 1 choice with
    | Except.error e => Except.error e
    | Except.ok (rest, calls) =>
      let sample := choice :: rest
      Except.ok (fun key => ((sample.count key : ℚ) / (sample.length : ℚ)), calls)

/-! ## Specification-side formulas

The following definitions transcribe the *specification's wording* of the
per-round update formula (claim C1) and of the transition distribution
(claim C2); the theorems below compare them with the code translations
above. -/

/-- The `addition` term exactly as the specification words it: the sum over
all pages `w` of `old_rank[w] / |graph[w]|` when `p ∈ graph[w]`, plus the sum
over all pages `w` of `old_rank[w] / N` when `graph[w]` is empty. -/
def addition_spec (pages : List α) (links : α → Finset α) (old_rank : α → ℚ)
    (p : α) : ℚ :=
  (pages.map (fun w => if p ∈ links w then old_rank w / ((links w).card : ℚ) else 0)).sum
    + (pages.map (fun w => if links w = ∅ then old_rank w / (pages.length : ℚ) else 0)).sum

/-- One update round exactly as the specification words it:
`new_rank[p] = (1-damping)/N + damping * addition(p)`, where a zero
`addition(p)` is first replaced by `1/N`. -/
def new_rank_spec (pages : List α) (links : α → Finset α) (damping : ℚ)
    (old_rank : α → ℚ) (p : α) : ℚ :=
  (1 - damping) / (pages.length : ℚ)
    + damping * (if addition_spec pages links old_rank p = 0
        then 1 / (pages.length : ℚ) else addition_spec pages links old_rank p)

/-- The transition distribution exactly as the specification words it: when
`graph[current_page]` is empty, every page gets exactly the uniform
`(1-damping)/N`; otherwise every page gets the base `(1-damping)/N` and each
member of `graph[current_page]` additionally gets
`damping / |graph[current_page]|`. -/
def transition_model_spec (pages : List α) (links : α → Finset α) (page : α)
    (damping : ℚ) : α → ℚ := fun p =>
  if links page = ∅ then (1 - damping) / (pages.length : ℚ)
  else if p ∈ links page then
    (1 - damping) / (pages.length : ℚ) + damping / ((links page).card : ℚ)
  else (1 - damping) / (pages.length : ℚ)

/-- The iterates of the update round, starting from the uniform
initialisation `1 / len(corpus)` of `iterate_pagerank`. -/
def traj (pages : List α) (links : α → Finset α) (damping_factor : ℚ)
    (k : ℕ) : α → ℚ :=
  (new_rank_step pages links damping_factor)^[k] (fun _ => 1 / (pages.length : ℚ))

/-- The L1 distance between two rank vectors over the corpus pages, used to
prove that the update round is a contraction. -/
def distL1 (pages : List α) (x y : α → ℚ) : ℚ :=
  ∑ w in pages.toFinset, |x w - y w|

/-! ## State-threaded translations (frame property)

For the frame claim (the input graph is never mutated) the three functions
are translated again with the corpus object threaded through every statement
of their bodies as explicit state: every dict write performed by the source
(`solution[web] += ...`, `solution[item] += 1`, `solution[key] /= ...`,
`new_pagerank[page] = ...`) becomes a `Function.update` on the local dict
carried in the accumulator, alongside the corpus.  The frame theorem states
that the corpus component of the state is the same after the call. -/

/-- A Python corpus object: its key list and its page-to-links mapping. -/
abbrev Corpus (α : Type) := List α × (α → Finset α)

/-- State-threaded `transition_model`: the `for web in solution:` loop
carries `(solution, corpus)` and each iteration writes only `solution`. -/
def transition_model_st (corpus : Corpus α) (page : α) (damping_factor : ℚ) :
    (α → ℚ) × Corpus α :=
  let random_factor := (1 - damping_factor) / (corpus.1.length : ℚ)
  let solution : α → ℚ := fun _ => random_factor
  corpus.1.foldl
    (fun (s : (α → ℚ) × Corpus α) web =>
      if web ∈ s.2.2 page then
        (Function.update s.1 web
          (s.1 web + damping_factor / ((s.2.2 page).card : ℚ)), s.2)
      else s)
    (solution, corpus)

/-- The sampling loop of `sample_pagerank`, state-threaded: each step passes
the corpus to `transition_model_st` and hands the returned corpus on. -/
def sample_loop_st (damping_factor : ℚ) (stream : ℕ → ℕ) :
    ℕ → ℕ → α → Corpus α → Except PyError (List α × Corpus α)
  | 0, _, _, corpus => Except.ok ([], corpus)
  | steps + 1, t, choice, corpus =>
    let res := transition_model_st corpus choice damping_factor
    let model := res.1
    let corpus := res.2
    match corpus.1 with
    | [] => Except.error PyError.indexError
    | o :: os =>
      let _ponderation := (o :: os).map model
      let next := (o :: os).get ⟨stream t % (o :: os).length, Nat.mod_lt _ (Nat.succ_pos _)⟩
      match sample_loop_st damping_factor stream steps (t + 1) next corpus with
      | Except.ok (rest, corpus') => Except.ok (next :: rest, corpus')
      | Except.error e => Except.error e

/-- State-threaded `sample_pagerank`: the tally loop
(`for item in sample: solution[item] += 1`) and the normalisation loop
(`for key in solution: solution[key] /= total_samples`) write only the local
`solution` dict, via `Function.update`. -/
def sample_pagerank_st (corpus : Corpus α) (damping_factor : ℚ) (n : ℤ)
    (stream : ℕ → ℕ) : Except PyError ((α → ℚ) × Corpus α) :=
  match corpus.1 with
  | [] => Except.error PyError.indexError
  | o :: os =>
    let choice := (o :: os).get ⟨stream 0 % (o :: os).length, Nat.mod_lt _ (Nat.succ_pos _)⟩
    match sample_loop_st damping_factor stream (n - 1).toNat 1 choice corpus with
    | Except.error e => Except.error e
    | Except.ok (rest, corpus') =>
      let sample := choice :: rest
      let solution : α → ℚ := fun _ => 0
      let solution := sample.foldl
        (fun sol item => Function.update sol item (sol item + 1)) solution
      let total_samples := (sample.length : ℚ)
      let solution := corpus'.1.foldl
        (fun sol key => Function.update sol key (sol key / total_samples)) solution
      Except.ok (solution, corpus')

/-- One round of `iterate_pagerank`, state-threaded: the
`for page in old_pagerank:` loop carries `(new_pagerank, corpus)`; the inner
`for web in corpus:` loop reads the corpus from the state; each round writes
only `new_pagerank[page]`. -/
def iterate_round_st (damping_factor : ℚ) (old_pagerank : α → ℚ)
    (st : (α → ℚ) × Corpus α) : (α → ℚ) × Corpus α :=
  st.2.1.foldl
    (fun s page =>
      let corpus := s.2
      let addition := corpus.1.foldl
        (fun a web =>
          let a :=
            if page ∈ corpus.2 web then
              a + old_pagerank web / ((corpus.2 web).card : ℚ)
            else a
          if corpus.2 web = ∅ then a + old_pagerank web / (corpus.1.length : ℚ)
          else a)
        0
      let addition := if addition = 0 then 1 / (corpus.1.length : ℚ) else addition
      (Function.update s.1 page
        ((1 - damping_factor) / (corpus.1.length : ℚ) + damping_factor * addition),
        corpus))
    st

/-- The `while True` loop of `iterate_pagerank`, state-threaded. -/
def iterate_loop_st (damping_factor : ℚ) :
    ℕ → (α → ℚ) → Corpus α → Option ((α → ℚ) × Corpus α)
  | 0, _, _ => none
  | fuel + 1, old_pagerank, corpus =>
    let res := iterate_round_st damping_factor old_pagerank ((fun _ => (0 : ℚ)), corpus)
    let new_pagerank := res.1
    let corpus := res.2
    if ∀ page ∈ corpus.1, |new_pagerank page - old_pagerank page| < 1 / 1000 then
      some (new_pagerank, corpus)
    else iterate_loop_st damping_factor fuel new_pagerank corpus

/-- State-threaded `iterate_pagerank`. -/
def iterate_pagerank_st (corpus : Corpus α) (damping_factor : ℚ) (fuel : ℕ) :
    Except PyError ((α → ℚ) × Corpus α) :=
  if corpus.1.length = 0 then Except.error PyError.zeroDivisionError
  else
    match iterate_loop_st damping_factor fuel
        (fun _ => 1 / (corpus.1.length : ℚ)) corpus with
    | some rc => Except.ok rc
    | none => Except.error PyError.fuelExhausted

/-! ## Concrete corpora used as witnesses and counterexamples -/

/-- A corpus with a single dangling page (one page, no out-links). -/
def pagesA : List ℕ := [0]

/-- Link mapping of `pagesA`: no page has out-links. -/
def linksA : ℕ → Finset ℕ := fun _ => ∅

/-- A three-page corpus: page 0 links to 1, pages 1 and 2 link to 0.  Page 2
has no inbound links, and no page is dangling. -/
def pagesB : List ℕ := [0, 1, 2]

/-- Link mapping of `pagesB`. -/
def linksB : ℕ → Finset ℕ := fun w => if w = 0 then {1} else {0}

/-- A two-page corpus: pages 0 and 1 link to each other. -/
def pagesC : List ℕ := [0, 1]

/-- Link mapping of `pagesC`. -/
def linksC : ℕ → Finset ℕ := fun w => if w = 0 then {1} else {0}

/-! ## Basic lemmas about the embedded code -/

lemma foldl_add_eq (g : α → ℚ) :
    ∀ (l : List α) (a : ℚ), l.foldl (fun acc w => acc + g w) a = a + (l.map g).sum
  | [], a => by simp
  | x :: xs, a => by
    simp only [List.foldl_cons, List.map_cons, List.sum_cons]
    rw [foldl_add_eq g xs (a + g x)]
    ring

/-- The inner accumulation loop computes the sum, over the corpus keys, of
the link contribution plus the dangling contribution. -/
lemma addition_loop_eq_sum (pages : List α) (links : α → Finset α)
    (old_pagerank : α → ℚ) (page : α) :
    addition_loop pages links old_pagerank page =
      (pages.map (fun w =>
        (if page ∈ links w then old_pagerank w / ((links w).card : ℚ) else 0)
          + (if links w = ∅ then old_pagerank w / (pages.length : ℚ) else 0))).sum := by
  unfold addition_loop
  have hstep : (fun (addition : ℚ) (web : α) =>
      let addition' :=
        if page ∈ links web then
          addition + old_pagerank web / ((links web).card : ℚ)
        else addition
      if links web = ∅ then
        addition' + old_pagerank web / (pages.length : ℚ)
      else addition')
      = fun (addition : ℚ) (web : α) => addition +
          ((if page ∈ links web then old_pagerank web / ((links web).card : ℚ) else 0)
            + (if links web = ∅ then old_pagerank web / (pages.length : ℚ) else 0)) := by
    funext a w
    by_cases h1 : page ∈ links w <;> by_cases h2 : links w = ∅ <;>
      simp [h1, h2] <;> ring
  rw [hstep, foldl_add_eq, zero_add]

/-- The loop `addition_loop` agrees with the specification's two-sum formula. -/
lemma addition_loop_eq_spec (pages : List α) (links : α → Finset α)
    (old_pagerank : α → ℚ) (page : α) :
    addition_loop pages links old_pagerank page
      = addition_spec pages links old_pagerank page := by
  rw [addition_loop_eq_sum, addition_spec, List.sum_map_add]

/-! ## C1: the per-round update formula -/

/-- C1: one update round of `iterate_pagerank` computes, for every page `p`
of a non-empty graph,
`new_rank[p] = (1-damping)/N + damping * addition(p)`, where `addition(p)`
sums `old_rank[w]/|graph[w]|` over the pages `w` linking to `p` plus
`old_rank[w]/N` over the dangling pages `w`, and a zero `addition(p)` is
first replaced by `1/N`.  The update is synchronous: `new_rank_step` consumes
only the previous round's `old_rank` (and `iterate_loop` applies it
Jacobi-style, replacing `old_rank` wholesale between rounds). -/
theorem c1_update_round_formula (pages : List α) (links : α → Finset α)
    (damping : ℚ) (old_rank : α → ℚ) (p : α)
    (hne : pages ≠ []) (hp : p ∈ pages) :
    new_rank_step pages links damping old_rank p
      = new_rank_spec pages links damping old_rank p := by
  have hadd := addition_loop_eq_spec pages links old_rank p
  simp only [new_rank_step, new_rank_spec, hadd]

/-- Witness for C1: the formula instantiated on the two-page cycle corpus at
page 0 with damping 0.85 and ranks (3/5, 2/5). -/
theorem c1_update_round_formula_witness :
    new_rank_step pagesC linksC (17/20) (fun w => if w = 0 then 3/5 else 2/5) 0
      = new_rank_spec pagesC linksC (17/20) (fun w => if w = 0 then 3/5 else 2/5) 0 :=
  c1_update_round_formula pagesC linksC (17/20)
    (fun w => if w = 0 then 3/5 else 2/5) 0 (by decide) (by decide)

/-! ## C2: the transition-model distribution -/

/-- C2: for a non-empty graph, a current page that is a key of the graph and
damping in `[0,1]`, the code's transition distribution matches the
specification's description: base probability `(1-damping)/N` for every
page, plus `damping/|graph[current_page]|` for each member of
`graph[current_page]`, and exactly the uniform `(1-damping)/N` for every
page when `graph[current_page]` is empty. -/
theorem c2_transition_model_formula (pages : List α) (links : α → Finset α)
    (page : α) (damping : ℚ) (hne : pages ≠ []) (hpage : page ∈ pages)
    (hd0 : 0 ≤ damping) (hd1 : damping ≤ 1) :
    ∀ p ∈ pages, transition_model pages links page damping p
      = transition_model_spec pages links page damping p := by
  intro p _
  by_cases hmem : p ∈ links page
  · have hne' : links page ≠ ∅ := by
      intro h
      rw [h] at hmem
      exact absurd hmem (Finset.not_mem_empty p)
    simp [transition_model, transition_model_spec, hmem, hne']
  · by_cases hq : links page = ∅ <;>
      simp [transition_model, transition_model_spec, hmem, hq]

/-- Witness for C2: the three-page corpus at current page 0, damping 0.85,
evaluated at page 1. -/
theorem c2_transition_model_formula_witness :
    transition_model pagesB linksB 0 (17/20) 1
      = transition_model_spec pagesB linksB 0 (17/20) 1 :=
  c2_transition_model_formula pagesB linksB 0 (17/20)
    (by decide) (by decide) (by norm_num) (by norm_num) 1 (by decide)

/-! ## C4: the dangling-page transition sum (code bug) -/

/-- C4 fails on the code: for the single-page corpus whose page has no
out-links and damping 0.85, the values of the returned transition
distribution sum to `3/20 = (1-damping)/N`, not 1 — contradicting both the
claim and the code's own comment `the values should add up to 1`. -/
theorem c4_dangling_transition_sum_eval :
    (pagesA.map (transition_model pagesA linksA 0 (17/20))).sum = 3/20
      ∧ ¬ ((3 : ℚ)/20 = 1) := by
  constructor
  · with_unfolding_all rfl
  · norm_num

/-! ## C6: sample_pagerank performs no validation (corrected) -/

/-- Counterexample to C6 as stated: with the non-empty three-page corpus and
`n = 0 < 1`, `sample_pagerank` does not fail at all — it returns a
distribution. -/
theorem c6_counterexample :
    (sample_pagerank pagesB linksB (17/20) 0 (fun _ => 0)).isOk = true := by
  decide

/-- C6 amended: `sample_pagerank` performs no validation.  On an empty graph
it fails with `IndexError` (from `random.choice` on the empty options list),
not `InvalidArgument`; with a non-empty graph and `n < 1` it does not fail:
it returns a distribution built from the single initial sample, performing
no transition step. -/
theorem c6_no_validation (pages : List α) (links : α → Finset α) (d : ℚ)
    (n : ℤ) (stream : ℕ → ℕ) :
    (pages = [] → sample_pagerank pages links d n stream
        = Except.error PyError.indexError)
    ∧ (pages ≠ [] → n < 1 →
        (sample_pagerank pages links d n stream).map Prod.snd = Except.ok 0) := by
  constructor
  · intro h
    subst h
    rfl
  · intro hne hn
    match pages with
    | [] => exact absurd rfl hne
    | o :: os =>
      have hsteps : (n - 1).toNat = 0 := by omega
      simp [sample_pagerank, hsteps, sample_loop, Except.map]

/-- Witness for C6 amended: the empty corpus raises `IndexError`; the
three-page corpus with `n = 0` returns with zero transition steps. -/
theorem c6_no_validation_witness :
    (sample_pagerank ([] : List ℕ) linksB (17/20) 5 (fun _ => 0)
        = Except.error PyError.indexError)
    ∧ (sample_pagerank pagesB linksB (17/20) 0 (fun _ => 0)).map Prod.snd
        = Except.ok 0 :=
  ⟨(c6_no_validation [] linksB (17/20) 5 (fun _ => 0)).1 rfl,
    (c6_no_validation pagesB linksB (17/20) 0 (fun _ => 0)).2
      (by decide) (by norm_num)⟩

/-! ## C7: iterate_pagerank performs no validation (corrected) -/

/-- Counterexample to C7 as stated: with the single dangling page and
`damping = 1 ≥ 1`, `iterate_pagerank` does not fail — the first round
already converges and the call returns a result. -/
theorem c7_counterexample :
    (iterate_pagerank pagesA linksA 1 1).isOk = true := by
  with_unfolding_all rfl

/-- C7 amended: `iterate_pagerank` performs no `InvalidArgument` check.  On
an empty graph it fails with `ZeroDivisionError` (raised by
`random_factor = (1 - damping_factor) / len(corpus)`), not `InvalidArgument`;
`damping ≥ 1` is not rejected: on the single dangling page with damping 1
the call returns rank 1 for the page. -/
theorem c7_no_validation (pages : List α) (links : α → Finset α) (d : ℚ)
    (fuel : ℕ) :
    (pages = [] → iterate_pagerank pages links d fuel
        = Except.error PyError.zeroDivisionError)
    ∧ (iterate_pagerank pagesA linksA 1 1).toOption.map (fun r => r 0)
        = some 1 := by
  constructor
  · intro h
    subst h
    rfl
  · with_unfolding_all rfl

/-- Witness for C7 amended: instantiated on the empty corpus. -/
theorem c7_no_validation_witness :
    (iterate_pagerank ([] : List ℕ) linksA (17/20) 3
        = Except.error PyError.zeroDivisionError)
    ∧ (iterate_pagerank pagesA linksA 1 1).toOption.map (fun r => r 0)
        = some 1 :=
  ⟨(c7_no_validation [] linksA (17/20) 3).1 rfl,
    (c7_no_validation [] linksA (17/20) 3).2⟩

/-! ## C8: sampling with n = 1 -/

/-- C8: for every non-empty graph and every damping, `sample_pagerank` with
`n = 1` returns the one-hot distribution on the first (randomly chosen)
page — value 1 there, 0 everywhere else — and evaluates the transition model
zero times (the step counter of the result is 0). -/
theorem c8_sample_one_hot (pages : List α) (links : α → Finset α) (d : ℚ)
    (stream : ℕ → ℕ) (hne : pages ≠ []) :
    ∃ first, first ∈ pages ∧
      sample_pagerank pages links d 1 stream
        = Except.ok ((fun key => if key = first then 1 else 0), 0) := by
  match pages with
  | [] => exact absurd rfl hne
  | o :: os =>
    set c := (o :: os).get ⟨stream 0 % (o :: os).length, Nat.mod_lt _ (Nat.succ_pos _)⟩ with hc
    refine ⟨c, List.get_mem _ _ _, ?_⟩
    have h1 : sample_pagerank (o :: os) links d 1 stream
        = Except.ok ((fun key => ([c].count key : ℚ) / ([c].length : ℚ)), 0) := by
      rw [hc]
      with_unfolding_all rfl
    rw [h1]
    refine congrArg Except.ok (Prod.ext ?_ rfl)
    funext key
    by_cases hk : key = c
    · simp [hk, List.count_singleton']
    · simp [List.count_singleton', hk, Ne.symm hk]

/-- Witness for C8: the three-page corpus with an oracle choosing index 1. -/
theorem c8_sample_one_hot_witness :
    ∃ first, first ∈ pagesB ∧
      sample_pagerank pagesB linksB (17/20) 1 (fun _ => 1)
        = Except.ok ((fun key => if key = first then 1 else 0), 0) :=
  c8_sample_one_hot pagesB linksB (17/20) (fun _ => 1) (by decide)

/-! ## Lemmas for termination and positivity of the iteration -/

/-- The loop `addition_loop` as a `Finset` sum over the (distinct) corpus keys. -/
lemma addition_loop_eq_finset_sum (pages : List α) (links : α → Finset α)
    (old_pagerank : α → ℚ) (page : α) (hnd : pages.Nodup) :
    addition_loop pages links old_pagerank page =
      ∑ w in pages.toFinset,
        ((if page ∈ links w then old_pagerank w / ((links w).card : ℚ) else 0)
          + (if links w = ∅ then old_pagerank w / (pages.length : ℚ) else 0)) := by
  rw [addition_loop_eq_sum]
  exact (List.sum_toFinset _ hnd).symm

lemma addition_loop_nonneg (pages : List α) (links : α → Finset α)
    (old_pagerank : α → ℚ) (page : α)
    (hold : ∀ w ∈ pages, 0 ≤ old_pagerank w) :
    0 ≤ addition_loop pages links old_pagerank page := by
  rw [addition_loop_eq_sum]
  apply List.sum_nonneg
  intro x hx
  simp only [List.mem_map] at hx
  obtain ⟨w, hw, rfl⟩ := hx
  have h0 := hold w hw
  apply add_nonneg
  · split
    · exact div_nonneg h0 (Nat.cast_nonneg _)
    · exact le_refl 0
  · split
    · exact div_nonneg h0 (Nat.cast_nonneg _)
    · exact le_refl 0

/-- When every page has positive rank, the `addition` of a page vanishes
exactly when no corpus page links to it and no corpus page is dangling. -/
lemma addition_loop_eq_zero_iff (pages : List α) (links : α → Finset α)
    (old_pagerank : α → ℚ) (page : α) (hnd : pages.Nodup)
    (hpos : ∀ w ∈ pages, 0 < old_pagerank w) :
    addition_loop pages links old_pagerank page = 0
      ↔ ∀ w ∈ pages, page ∉ links w ∧ links w ≠ ∅ := by
  rw [addition_loop_eq_finset_sum pages links old_pagerank page hnd]
  rw [Finset.sum_eq_zero_iff_of_nonneg]
  · constructor
    · intro h w hw
      have hw' : w ∈ pages.toFinset := List.mem_toFinset.mpr hw
      have hterm := h w hw'
      have hpw := hpos w hw
      by_cases h1 : page ∈ links w
      · exfalso
        have hcards : 0 < ((links w).card : ℚ) := by
          have : 0 < (links w).card := Finset.card_pos.mpr ⟨page, h1⟩
          exact_mod_cast this
        have h2 : links w ≠ ∅ := by
          intro h2
          rw [h2] at h1
          exact absurd h1 (Finset.not_mem_empty page)
        rw [if_pos h1, if_neg h2, add_zero] at hterm
        exact absurd hterm (ne_of_gt (div_pos hpw hcards))
      · by_cases h2 : links w = ∅
        · exfalso
          have hlen : 0 < (pages.length : ℚ) := by
            have : 0 < pages.length := List.length_pos.mpr (List.ne_nil_of_mem hw)
            exact_mod_cast this
          rw [if_neg h1, if_pos h2, zero_add] at hterm
          exact absurd hterm (ne_of_gt (div_pos hpw hlen))
        · exact ⟨h1, h2⟩
    · intro h w hw
      have hw' : w ∈ pages := List.mem_toFinset.mp hw
      rw [if_neg (h w hw').1, if_neg (h w hw').2, add_zero]
  · intro w _
    apply add_nonneg
    · split
      · exact div_nonneg (le_of_lt (hpos w (List.mem_toFinset.mp ‹w ∈ pages.toFinset›))) (Nat.cast_nonneg _)
      · exact le_refl 0
    · split
      · exact div_nonneg (le_of_lt (hpos w (List.mem_toFinset.mp ‹w ∈ pages.toFinset›))) (Nat.cast_nonneg _)
      · exact le_refl 0

/-- When no corpus page links to `page` and no corpus page is dangling, the
`addition` of `page` is zero for any rank vector. -/
lemma addition_loop_eq_zero_of (pages : List α) (links : α → Finset α)
    (old_pagerank : α → ℚ) (page : α)
    (hz : ∀ w ∈ pages, page ∉ links w ∧ links w ≠ ∅) :
    addition_loop pages links old_pagerank page = 0 := by
  rw [addition_loop_eq_sum]
  apply List.sum_eq_zero
  intro x hx
  simp only [List.mem_map] at hx
  obtain ⟨w, hw, rfl⟩ := hx
  rw [if_neg (hz w hw).1, if_neg (hz w hw).2, add_zero]

/-- Every value produced by one update round is at least the base term
`(1-damping)/N` (for a nonnegative previous round). -/
lemma new_rank_step_ge (pages : List α) (links : α → Finset α) (d : ℚ)
    (old_pagerank : α → ℚ) (hd0 : 0 ≤ d)
    (hold : ∀ w ∈ pages, 0 ≤ old_pagerank w) (p : α) :
    (1 - d) / (pages.length : ℚ) ≤ new_rank_step pages links d old_pagerank p := by
  simp only [new_rank_step]
  apply le_add_of_nonneg_right
  apply mul_nonneg hd0
  split
  · positivity
  · exact addition_loop_nonneg pages links old_pagerank p hold

/-- For a non-empty corpus and `damping < 1` the base term is positive. -/
lemma base_pos (pages : List α) (d : ℚ) (hne : pages ≠ []) (hd1 : d < 1) :
    0 < (1 - d) / (pages.length : ℚ) := by
  apply div_pos (by linarith)
  have : 0 < pages.length := List.length_pos.mpr hne
  exact_mod_cast this

/-- Column-sum bound: for a fixed contributor `w`, the total weight it
spreads over all pages is at most 1 (scaled here by `q ≥ 0`): a linking page
splits `1/|links w|` over its targets, a dangling page splits `1/N` over all
`N` pages. -/
lemma column_sum_le (pages : List α) (links : α → Finset α) (hnd : pages.Nodup)
    (q : ℚ) (hq : 0 ≤ q) (w : α) (hw : w ∈ pages) :
    ∑ p in pages.toFinset,
        ((if p ∈ links w then q / ((links w).card : ℚ) else 0)
          + (if links w = ∅ then q / (pages.length : ℚ) else 0)) ≤ q := by
  rw [Finset.sum_add_distrib]
  by_cases h2 : links w = ∅
  · have hfirst : ∑ p in pages.toFinset,
        (if p ∈ links w then q / ((links w).card : ℚ) else 0) = 0 := by
      apply Finset.sum_eq_zero
      intro p _
      rw [h2]
      simp
    have hlen : (0 : ℚ) < (pages.length : ℚ) := by
      have : 0 < pages.length := List.length_pos.mpr (List.ne_nil_of_mem hw)
      exact_mod_cast this
    rw [hfirst, zero_add]
    have hsecond : ∑ p in pages.toFinset,
        (if links w = ∅ then q / (pages.length : ℚ) else 0)
          = (pages.length : ℚ) * (q / (pages.length : ℚ)) := by
      have hcg : ∑ p in pages.toFinset,
          (if links w = ∅ then q / (pages.length : ℚ) else 0)
            = ∑ _p in pages.toFinset, q / (pages.length : ℚ) := by
        apply Finset.sum_congr rfl
        intro p _
        rw [if_pos h2]
      rw [hcg, Finset.sum_const, nsmul_eq_mul, List.toFinset_card_of_nodup hnd]
    rw [hsecond, mul_div_cancel₀ q (ne_of_gt hlen)]
  · have hsecond : ∑ p in pages.toFinset,
        (if links w = ∅ then q / (pages.length : ℚ) else 0) = 0 := by
      apply Finset.sum_eq_zero
      intro p _
      rw [if_neg h2]
    rw [hsecond, add_zero]
    have hcard : 0 < (links w).card := Finset.card_pos.mpr (Finset.nonempty_iff_ne_empty.mpr h2)
    have hcard' : (0 : ℚ) < ((links w).card : ℚ) := by exact_mod_cast hcard
    calc ∑ p in pages.toFinset, (if p ∈ links w then q / ((links w).card : ℚ) else 0)
        = ∑ p in pages.toFinset.filter (fun p => p ∈ links w), q / ((links w).card : ℚ) := by
          rw [Finset.sum_filter]
      _ = ((pages.toFinset.filter (fun p => p ∈ links w)).card : ℚ) * (q / ((links w).card : ℚ)) := by
          rw [Finset.sum_const, nsmul_eq_mul]
      _ ≤ ((links w).card : ℚ) * (q / ((links w).card : ℚ)) := by
          apply mul_le_mul_of_nonneg_right
          · have hsub : pages.toFinset.filter (fun p => p ∈ links w) ⊆ links w := by
              intro p hp
              exact (Finset.mem_filter.mp hp).2
            exact_mod_cast Finset.card_le_card hsub
          · positivity
      _ = q := mul_div_cancel₀ q (ne_of_gt hcard')

/-- Pointwise contraction bound for one round: the change at a page is at
most `damping` times the weighted inbound change. -/
lemma step_diff_le (pages : List α) (links : α → Finset α) (d : ℚ)
    (old_pagerank old_pagerank' : α → ℚ) (hnd : pages.Nodup) (hd0 : 0 ≤ d)
    (hpos : ∀ w ∈ pages, 0 < old_pagerank w)
    (hpos' : ∀ w ∈ pages, 0 < old_pagerank' w) (p : α) :
    |new_rank_step pages links d old_pagerank p
        - new_rank_step pages links d old_pagerank' p|
      ≤ d * ∑ w in pages.toFinset,
          ((if p ∈ links w then |old_pagerank w - old_pagerank' w| / ((links w).card : ℚ) else 0)
            + (if links w = ∅ then |old_pagerank w - old_pagerank' w| / (pages.length : ℚ) else 0)) := by
  have hBnn : 0 ≤ ∑ w in pages.toFinset,
      ((if p ∈ links w then |old_pagerank w - old_pagerank' w| / ((links w).card : ℚ) else 0)
        + (if links w = ∅ then |old_pagerank w - old_pagerank' w| / (pages.length : ℚ) else 0)) := by
    apply Finset.sum_nonneg
    intro w _
    apply add_nonneg
    · split
      · positivity
      · exact le_refl 0
    · split
      · positivity
      · exact le_refl 0
  by_cases hz : ∀ w ∈ pages, p ∉ links w ∧ links w ≠ ∅
  · have e1 : new_rank_step pages links d old_pagerank p
        = (1 - d) / (pages.length : ℚ) + d * (1 / (pages.length : ℚ)) := by
      simp only [new_rank_step]
      rw [addition_loop_eq_zero_of pages links old_pagerank p hz, if_pos rfl]
    have e2 : new_rank_step pages links d old_pagerank' p
        = (1 - d) / (pages.length : ℚ) + d * (1 / (pages.length : ℚ)) := by
      simp only [new_rank_step]
      rw [addition_loop_eq_zero_of pages links old_pagerank' p hz, if_pos rfl]
    rw [e1, e2, sub_self, abs_zero]
    exact mul_nonneg hd0 hBnn
  · have h1 : addition_loop pages links old_pagerank p ≠ 0 := by
      rw [Ne, addition_loop_eq_zero_iff pages links old_pagerank p hnd hpos]
      exact hz
    have h1' : addition_loop pages links old_pagerank' p ≠ 0 := by
      rw [Ne, addition_loop_eq_zero_iff pages links old_pagerank' p hnd hpos']
      exact hz
    have e1 : new_rank_step pages links d old_pagerank p
        = (1 - d) / (pages.length : ℚ) + d * addition_loop pages links old_pagerank p := by
      simp only [new_rank_step]
      rw [if_neg h1]
    have e2 : new_rank_step pages links d old_pagerank' p
        = (1 - d) / (pages.length : ℚ) + d * addition_loop pages links old_pagerank' p := by
      simp only [new_rank_step]
      rw [if_neg h1']
    rw [e1, e2, show (1 - d) / (pages.length : ℚ) + d * addition_loop pages links old_pagerank p
        - ((1 - d) / (pages.length : ℚ) + d * addition_loop pages links old_pagerank' p)
        = d * (addition_loop pages links old_pagerank p
            - addition_loop pages links old_pagerank' p) by ring]
    rw [abs_mul, abs_of_nonneg hd0]
    apply mul_le_mul_of_nonneg_left _ hd0
    rw [addition_loop_eq_finset_sum pages links old_pagerank p hnd,
      addition_loop_eq_finset_sum pages links old_pagerank' p hnd,
      ← Finset.sum_sub_distrib]
    calc |∑ w in pages.toFinset,
          (((if p ∈ links w then old_pagerank w / ((links w).card : ℚ) else 0)
              + (if links w = ∅ then old_pagerank w / (pages.length : ℚ) else 0))
            - ((if p ∈ links w then old_pagerank' w / ((links w).card : ℚ) else 0)
              + (if links w = ∅ then old_pagerank' w / (pages.length : ℚ) else 0)))|
        ≤ ∑ w in pages.toFinset,
          |(((if p ∈ links w then old_pagerank w / ((links w).card : ℚ) else 0)
              + (if links w = ∅ then old_pagerank w / (pages.length : ℚ) else 0))
            - ((if p ∈ links w then old_pagerank' w / ((links w).card : ℚ) else 0)
              + (if links w = ∅ then old_pagerank' w / (pages.length : ℚ) else 0)))| :=
          Finset.abs_sum_le_sum_abs _ _
      _ ≤ ∑ w in pages.toFinset,
          ((if p ∈ links w then |old_pagerank w - old_pagerank' w| / ((links w).card : ℚ) else 0)
            + (if links w = ∅ then |old_pagerank w - old_pagerank' w| / (pages.length : ℚ) else 0)) := by
          apply Finset.sum_le_sum
          intro w _
          by_cases hm : p ∈ links w
          · by_cases hdg : links w = ∅
            · exact absurd (hdg ▸ hm) (Finset.not_mem_empty p)
            · simp only [if_pos hm, if_neg hdg, add_zero]
              rw [div_sub_div_same, abs_div,
                abs_of_nonneg (Nat.cast_nonneg ((links w).card) : (0 : ℚ) ≤ _)]
          · by_cases hdg : links w = ∅
            · simp only [if_neg hm, if_pos hdg, zero_add]
              rw [div_sub_div_same, abs_div,
                abs_of_nonneg (Nat.cast_nonneg (pages.length) : (0 : ℚ) ≤ _)]
            · simp [if_neg hm, if_neg hdg]


/-- One update round contracts the L1 distance by a factor `damping`
(between positive rank vectors). -/
lemma step_contraction (pages : List α) (links : α → Finset α) (d : ℚ)
    (old_pagerank old_pagerank' : α → ℚ) (hnd : pages.Nodup) (hd0 : 0 ≤ d)
    (hpos : ∀ w ∈ pages, 0 < old_pagerank w)
    (hpos' : ∀ w ∈ pages, 0 < old_pagerank' w) :
    distL1 pages (new_rank_step pages links d old_pagerank)
        (new_rank_step pages links d old_pagerank')
      ≤ d * distL1 pages old_pagerank old_pagerank' := by
  unfold distL1
  calc ∑ p in pages.toFinset,
        |new_rank_step pages links d old_pagerank p
          - new_rank_step pages links d old_pagerank' p|
      ≤ ∑ p in pages.toFinset,
        (d * ∑ w in pages.toFinset,
          ((if p ∈ links w then |old_pagerank w - old_pagerank' w| / ((links w).card : ℚ) else 0)
            + (if links w = ∅ then |old_pagerank w - old_pagerank' w| / (pages.length : ℚ) else 0))) :=
        Finset.sum_le_sum (fun p _ =>
          step_diff_le pages links d old_pagerank old_pagerank' hnd hd0 hpos hpos' p)
    _ = d * ∑ p in pages.toFinset, ∑ w in pages.toFinset,
          ((if p ∈ links w then |old_pagerank w - old_pagerank' w| / ((links w).card : ℚ) else 0)
            + (if links w = ∅ then |old_pagerank w - old_pagerank' w| / (pages.length : ℚ) else 0)) :=
        (Finset.mul_sum _ _ _).symm
    _ = d * ∑ w in pages.toFinset, ∑ p in pages.toFinset,
          ((if p ∈ links w then |old_pagerank w - old_pagerank' w| / ((links w).card : ℚ) else 0)
            + (if links w = ∅ then |old_pagerank w - old_pagerank' w| / (pages.length : ℚ) else 0)) := by
        rw [Finset.sum_comm]
    _ ≤ d * ∑ w in pages.toFinset, |old_pagerank w - old_pagerank' w| := by
        apply mul_le_mul_of_nonneg_left _ hd0
        apply Finset.sum_le_sum
        intro w hw
        exact column_sum_le pages links hnd _ (abs_nonneg _) w (List.mem_toFinset.mp hw)

lemma traj_succ (pages : List α) (links : α → Finset α) (d : ℚ) (k : ℕ) :
    traj pages links d (k + 1)
      = new_rank_step pages links d (traj pages links d k) :=
  Function.iterate_succ_apply' (new_rank_step pages links d) k _

/-- Every iterate of the update round is pointwise positive. -/
lemma traj_pos (pages : List α) (links : α → Finset α) (d : ℚ)
    (hne : pages ≠ []) (hd0 : 0 ≤ d) (hd1 : d < 1) :
    ∀ k p, 0 < traj pages links d k p := by
  intro k
  induction k with
  | zero =>
    intro p
    have : 0 < pages.length := List.length_pos.mpr hne
    have hlen : (0 : ℚ) < (pages.length : ℚ) := by exact_mod_cast this
    simpa [traj] using by positivity
  | succ k ih =>
    intro p
    rw [traj_succ]
    calc (0 : ℚ) < (1 - d) / (pages.length : ℚ) := base_pos pages d hne hd1
      _ ≤ new_rank_step pages links d (traj pages links d k) p :=
        new_rank_step_ge pages links d _ hd0 (fun w _ => le_of_lt (ih w)) p

/-- The L1 distance between consecutive iterates decays geometrically. -/
lemma traj_dist_le_pow (pages : List α) (links : α → Finset α) (d : ℚ)
    (hnd : pages.Nodup) (hne : pages ≠ []) (hd0 : 0 ≤ d) (hd1 : d < 1) :
    ∀ k, distL1 pages (traj pages links d (k + 1)) (traj pages links d k)
      ≤ d ^ k * distL1 pages (traj pages links d 1) (traj pages links d 0) := by
  intro k
  induction k with
  | zero => simp
  | succ k ih =>
    have hstep := step_contraction pages links d
      (traj pages links d (k + 1)) (traj pages links d k) hnd hd0
      (fun w _ => traj_pos pages links d hne hd0 hd1 (k + 1) w)
      (fun w _ => traj_pos pages links d hne hd0 hd1 k w)
    rw [← traj_succ pages links d (k + 1), ← traj_succ pages links d k] at hstep
    calc distL1 pages (traj pages links d (k + 2)) (traj pages links d (k + 1))
        ≤ d * distL1 pages (traj pages links d (k + 1)) (traj pages links d k) := hstep
      _ ≤ d * (d ^ k * distL1 pages (traj pages links d 1) (traj pages links d 0)) :=
          mul_le_mul_of_nonneg_left ih hd0
      _ = d ^ (k + 1) * distL1 pages (traj pages links d 1) (traj pages links d 0) := by
          ring

/-- Some round of the iteration satisfies the convergence test. -/
lemma exists_converged_round (pages : List α) (links : α → Finset α) (d : ℚ)
    (hnd : pages.Nodup) (hne : pages ≠ []) (hd0 : 0 ≤ d) (hd1 : d < 1) :
    ∃ k, ∀ p ∈ pages,
      |traj pages links d (k + 1) p - traj pages links d k p| < 1 / 1000 := by
  have hD0 : 0 ≤ distL1 pages (traj pages links d 1) (traj pages links d 0) :=
    Finset.sum_nonneg (fun w _ => abs_nonneg _)
  have hsmall : ∃ k, d ^ k * distL1 pages (traj pages links d 1) (traj pages links d 0)
      < 1 / 1000 := by
    rcases eq_or_lt_of_le hD0 with h0 | h0
    · exact ⟨0, by rw [← h0]; norm_num⟩
    · obtain ⟨k, hk⟩ := exists_pow_lt_of_lt_one
        (div_pos (by norm_num : (0 : ℚ) < 1 / 1000) h0) hd1
      exact ⟨k, (lt_div_iff₀ h0).mp hk⟩
  obtain ⟨k, hk⟩ := hsmall
  refine ⟨k, fun p hp => ?_⟩
  have hle : |traj pages links d (k + 1) p - traj pages links d k p|
      ≤ distL1 pages (traj pages links d (k + 1)) (traj pages links d k) := by
    unfold distL1
    have hf : ∀ w ∈ pages.toFinset,
        (0 : ℚ) ≤ |traj pages links d (k + 1) w - traj pages links d k w| :=
      fun w _ => abs_nonneg _
    exact Finset.single_le_sum hf (List.mem_toFinset.mpr hp)
  calc |traj pages links d (k + 1) p - traj pages links d k p|
      ≤ distL1 pages (traj pages links d (k + 1)) (traj pages links d k) := hle
    _ ≤ d ^ k * distL1 pages (traj pages links d 1) (traj pages links d 0) :=
        traj_dist_le_pow pages links d hnd hne hd0 hd1 k
    _ < 1 / 1000 := hk

/-- If some round within the fuel bound passes the convergence test, the
loop returns a result. -/
lemma iterate_loop_terminates_of (pages : List α) (links : α → Finset α) (d : ℚ) :
    ∀ (fuel j : ℕ) (old : α → ℚ), j < fuel →
      (∀ p ∈ pages,
        |new_rank_step pages links d ((new_rank_step pages links d)^[j] old) p
          - (new_rank_step pages links d)^[j] old p| < 1 / 1000) →
      ∃ r, iterate_loop pages links d fuel old = some r := by
  intro fuel
  induction fuel with
  | zero => intro j old hj _; exact absurd hj (Nat.not_lt_zero j)
  | succ fuel ih =>
    intro j old hj hcheck
    by_cases hcv : ∀ p ∈ pages,
        |new_rank_step pages links d old p - old p| < 1 / 1000
    · refine ⟨new_rank_step pages links d old, ?_⟩
      simp only [iterate_loop]
      rw [if_pos hcv]
    · match j with
      | 0 => exact absurd (by simpa using hcheck) hcv
      | j' + 1 =>
        have hloop : iterate_loop pages links d (fuel + 1) old
            = iterate_loop pages links d fuel (new_rank_step pages links d old) := by
          simp only [iterate_loop]
          rw [if_neg hcv]
        have hcheck' : ∀ p ∈ pages,
            |new_rank_step pages links d
                ((new_rank_step pages links d)^[j'] (new_rank_step pages links d old)) p
              - (new_rank_step pages links d)^[j'] (new_rank_step pages links d old) p|
              < 1 / 1000 := by
          intro p hp
          have := hcheck p hp
          rwa [Function.iterate_succ_apply] at this
        obtain ⟨r, hr⟩ := ih j' (new_rank_step pages links d old)
          (Nat.lt_of_succ_lt_succ hj) hcheck'
        exact ⟨r, hloop.trans hr⟩

/-! ## C5: termination of iterate_pagerank -/

/-- C5: for every non-empty graph (with distinct page keys, as dict keys
are) and every damping in `[0, 1)`, `iterate_pagerank` terminates: some
round passes the `0.001` convergence test, and with enough fuel the loop
returns (the fuel parameter models the unbounded Python `while True`; the
loop by construction returns the first convergent round's `new_pagerank`). -/
theorem c5_iterate_terminates (pages : List α) (links : α → Finset α) (d : ℚ)
    (hnd : pages.Nodup) (hne : pages ≠ []) (hd0 : 0 ≤ d) (hd1 : d < 1) :
    ∃ fuel r, iterate_pagerank pages links d fuel = Except.ok r := by
  obtain ⟨k, hk⟩ := exists_converged_round pages links d hnd hne hd0 hd1
  have hk' : ∀ p ∈ pages,
      |new_rank_step pages links d
          ((new_rank_step pages links d)^[k] (fun _ => 1 / (pages.length : ℚ))) p
        - (new_rank_step pages links d)^[k] (fun _ => 1 / (pages.length : ℚ)) p|
        < 1 / 1000 := by
    intro p hp
    have := hk p hp
    rwa [traj_succ, traj] at this
  obtain ⟨r, hr⟩ := iterate_loop_terminates_of pages links d (k + 1) k
    (fun _ => 1 / (pages.length : ℚ)) (Nat.lt_succ_self k) hk'
  have hlen : ¬ pages.length = 0 := by
    simpa [List.length_eq_zero] using hne
  refine ⟨k + 1, r, ?_⟩
  simp only [iterate_pagerank, hr]
  rw [if_neg hlen]

/-- Witness for C5: the single dangling page with damping 1/2 terminates. -/
theorem c5_iterate_terminates_witness :
    ∃ fuel r, iterate_pagerank pagesA linksA (1/2) fuel = Except.ok r :=
  c5_iterate_terminates pagesA linksA (1/2)
    (by decide) (by decide) (by norm_num) (by norm_num)

/-! ## C10: a positive lower bound on the returned ranks -/

lemma iterate_loop_result_ge (pages : List α) (links : α → Finset α) (d : ℚ)
    (hd0 : 0 ≤ d) (hd1 : d ≤ 1) :
    ∀ (fuel : ℕ) (old : α → ℚ), (∀ w ∈ pages, 0 ≤ old w) →
      ∀ r, iterate_loop pages links d fuel old = some r →
        ∀ p, (1 - d) / (pages.length : ℚ) ≤ r p := by
  intro fuel
  induction fuel with
  | zero => intro old _ r h; exact absurd h (by simp [iterate_loop])
  | succ fuel ih =>
    intro old hold r h
    have hbase : 0 ≤ (1 - d) / (pages.length : ℚ) := by
      apply div_nonneg (by linarith)
      exact Nat.cast_nonneg _
    have hnew : ∀ w ∈ pages, 0 ≤ new_rank_step pages links d old w := fun w _ =>
      le_trans hbase (new_rank_step_ge pages links d old hd0 hold w)
    by_cases hcv : ∀ page ∈ pages,
        |new_rank_step pages links d old page - old page| < 1 / 1000
    · have hr : r = new_rank_step pages links d old := by
        simp only [iterate_loop] at h
        rw [if_pos hcv] at h
        exact (Option.some.inj h).symm
      intro p
      rw [hr]
      exact new_rank_step_ge pages links d old hd0 hold p
    · have h' : iterate_loop pages links d fuel (new_rank_step pages links d old)
          = some r := by
        simp only [iterate_loop] at h
        rwa [if_neg hcv] at h
      exact ih (new_rank_step pages links d old) hnew r h'

/-- C10: for every non-empty graph and damping in `[0, 1)`, every value of a
distribution returned by `iterate_pagerank` is at least `(1-damping)/N`, and
hence strictly positive: each round assigns the base term plus a
nonnegative damped addition. -/
theorem c10_iterate_lower_bound (pages : List α) (links : α → Finset α)
    (d : ℚ) (fuel : ℕ) (r : α → ℚ)
    (hne : pages ≠ []) (hd0 : 0 ≤ d) (hd1 : d < 1)
    (h : iterate_pagerank pages links d fuel = Except.ok r) :
    ∀ p ∈ pages, (1 - d) / (pages.length : ℚ) ≤ r p ∧ 0 < r p := by
  have hlen : ¬ pages.length = 0 := by
    simpa [List.length_eq_zero] using hne
  simp only [iterate_pagerank] at h
  rw [if_neg hlen] at h
  have hinit : ∀ w ∈ pages, 0 ≤ (fun _ => 1 / (pages.length : ℚ)) w := by
    intro w _
    have : 0 < pages.length := List.length_pos.mpr hne
    have hlen' : (0 : ℚ) < (pages.length : ℚ) := by exact_mod_cast this
    positivity
  cases hloop : iterate_loop pages links d fuel (fun _ => 1 / (pages.length : ℚ)) with
  | none => rw [hloop] at h; exact absurd h (by simp)
  | some r' =>
    rw [hloop] at h
    have hr : r' = r := by
      simpa using h
    subst hr
    intro p _
    have hge := iterate_loop_result_ge pages links d hd0 (le_of_lt hd1) fuel
      (fun _ => 1 / (pages.length : ℚ)) hinit r' hloop p
    exact ⟨hge, lt_of_lt_of_le (base_pos pages d hne hd1) hge⟩

/-- Witness for C10: the single dangling page with damping 1/2 and fuel 1
returns rank 1 for its page, which is at least `(1 - 1/2)/1` and positive. -/
theorem c10_iterate_lower_bound_witness :
    (1 - 1/2) / ((pagesA.length : ℕ) : ℚ)
        ≤ (iterate_pagerank pagesA linksA (1/2) 1).toOption.getD (fun _ => 0) 0
      ∧ 0 < (iterate_pagerank pagesA linksA (1/2) 1).toOption.getD (fun _ => 0) 0 :=
  c10_iterate_lower_bound pagesA linksA (1/2) 1
    ((iterate_pagerank pagesA linksA (1/2) 1).toOption.getD (fun _ => 0))
    (by decide) (by norm_num) (by norm_num) (by with_unfolding_all rfl)
    0 (by decide)

/-- C3 fails on the code: on the three-page corpus (0 links to 1, pages 1
and 2 link to 0 — page 2 has no inbound links and nobody dangles) with
damping 1/10, `iterate_pagerank` converges and returns values summing to
`1037/1000`, which is not within `1e-6` of 1: the zero-`addition`
substitution re-injects `1/N` of mass for page 2 every round, contradicting
the claim and the code's own docstring `All PageRank values should sum to 1`. -/
theorem c3_iterate_sum_eval :
    (iterate_pagerank pagesB linksB (1/10) 10).isOk = true
    ∧ (pagesB.map
        ((iterate_pagerank pagesB linksB (1/10) 10).toOption.getD (fun _ => 0))).sum
        = 1037/1000
    ∧ ¬ (|((1037 : ℚ)/1000) - 1| ≤ 1/1000000) := by
  refine ⟨by with_unfolding_all rfl, by with_unfolding_all rfl, ?_⟩
  rw [show ((1037 : ℚ)/1000 - 1) = 37/1000 by norm_num]
  rw [abs_of_nonneg (by norm_num : (0 : ℚ) ≤ 37/1000)]
  norm_num

/-! ## C9: the input graph is never mutated -/

lemma foldl_snd_eq {β γ : Type} (f : (β × γ) → α → (β × γ))
    (hf : ∀ s a, (f s a).2 = s.2) :
    ∀ (l : List α) (s : β × γ), (l.foldl f s).2 = s.2
  | [], _ => rfl
  | x :: xs, s => by
    rw [List.foldl_cons, foldl_snd_eq f hf xs (f s x), hf]

lemma transition_model_st_frame (corpus : Corpus α) (page : α) (d : ℚ) :
    (transition_model_st corpus page d).2 = corpus := by
  unfold transition_model_st
  exact foldl_snd_eq _
    (fun s a => by by_cases h : a ∈ s.2.2 page <;> simp [h]) _ _

lemma sample_loop_st_frame (d : ℚ) (stream : ℕ → ℕ) :
    ∀ (steps t : ℕ) (choice : α) (corpus : Corpus α) (res : List α × Corpus α),
      sample_loop_st d stream steps t choice corpus = Except.ok res →
        res.2 = corpus := by
  intro steps
  induction steps with
  | zero =>
    intro t choice corpus res h
    simp only [sample_loop_st] at h
    rw [← Except.ok.inj h]
  | succ steps ih =>
    intro t choice corpus res h
    simp only [sample_loop_st] at h
    rw [transition_model_st_frame] at h
    split at h
    · exact absurd h (by simp)
    · split at h
      · rename_i rest corpus' heq
        rw [← Except.ok.inj h]
        exact ih (t + 1) _ corpus (rest, corpus') heq
      · exact absurd h (by simp)

lemma sample_pagerank_st_frame (corpus : Corpus α) (d : ℚ) (n : ℤ)
    (stream : ℕ → ℕ) (res : (α → ℚ) × Corpus α)
    (h : sample_pagerank_st corpus d n stream = Except.ok res) :
    res.2 = corpus := by
  simp only [sample_pagerank_st] at h
  split at h
  · exact absurd h (by simp)
  · split at h
    · exact absurd h (by simp)
    · rename_i rest corpus' heq
      rw [← Except.ok.inj h]
      exact sample_loop_st_frame d stream (n - 1).toNat 1 _ corpus
        (rest, corpus') heq

lemma iterate_round_st_frame (d : ℚ) (old_pagerank : α → ℚ)
    (st : (α → ℚ) × Corpus α) :
    (iterate_round_st d old_pagerank st).2 = st.2 := by
  unfold iterate_round_st
  apply foldl_snd_eq
  intro s a
  rfl

lemma iterate_loop_st_frame (d : ℚ) :
    ∀ (fuel : ℕ) (old_pagerank : α → ℚ) (corpus : Corpus α)
      (res : (α → ℚ) × Corpus α),
      iterate_loop_st d fuel old_pagerank corpus = some res → res.2 = corpus := by
  intro fuel
  induction fuel with
  | zero =>
    intro old corpus res h
    exact absurd h (by simp [iterate_loop_st])
  | succ fuel ih =>
    intro old corpus res h
    simp only [iterate_loop_st] at h
    rw [iterate_round_st_frame] at h
    split at h
    · rw [← Option.some.inj h]
    · exact ih _ corpus res h

lemma iterate_pagerank_st_frame (corpus : Corpus α) (d : ℚ) (fuel : ℕ)
    (res : (α → ℚ) × Corpus α)
    (h : iterate_pagerank_st corpus d fuel = Except.ok res) :
    res.2 = corpus := by
  simp only [iterate_pagerank_st] at h
  split at h
  · exact absurd h (by simp)
  · split at h
    · rename_i pr heq
      rw [← Except.ok.inj h]
      exact iterate_loop_st_frame d fuel _ corpus pr heq
    · exact absurd h (by simp)

/-- C9: no function mutates the input graph.  In the state-threaded
translations (where every dict write of the source is explicit and the
corpus object is carried through every statement), the corpus component of
the state after any call — `transition_model`, `sample_pagerank` (on
success) and `iterate_pagerank` (on success) — equals the input corpus:
all writes target locally created dicts. -/
theorem c9_no_graph_mutation (corpus : Corpus α) (page : α) (d : ℚ) (n : ℤ)
    (stream : ℕ → ℕ) (fuel : ℕ) :
    (transition_model_st corpus page d).2 = corpus
    ∧ (sample_pagerank_st corpus d n stream).map Prod.snd
        = (sample_pagerank_st corpus d n stream).map (fun _ => corpus)
    ∧ (iterate_pagerank_st corpus d fuel).map Prod.snd
        = (iterate_pagerank_st corpus d fuel).map (fun _ => corpus) := by
  refine ⟨transition_model_st_frame corpus page d, ?_, ?_⟩
  · cases hs : sample_pagerank_st corpus d n stream with
    | error e => simp [Except.map]
    | ok res =>
      simp [Except.map, sample_pagerank_st_frame corpus d n stream res hs]
  · cases hs : iterate_pagerank_st corpus d fuel with
    | error e => simp [Except.map]
    | ok res =>
      simp [Except.map, iterate_pagerank_st_frame corpus d fuel res hs]

end PageRank
